import Mathlib

/-!
Verification of the spectrogram construction core of the chirp-cnn
repository (`src/utils/spectrogram.py`).

The Python functions operate on IEEE floats; here they are embedded with
exact arithmetic: scalar inputs become `ℚ` (parameter derivation) or `ℝ`
(logarithmic calibration), `math.log2`-based tests become exact
power-of-two tests via `Int.log`/`Int.clog`, a raised exception becomes
`Option.none`, and a Python `int(...)` cast becomes truncation toward
zero.
-/

/-- Truncation toward zero: the semantics of Python's builtin `int()` applied
to a real value. -/
def py_int (q : ℚ) : ℤ := if 0 ≤ q then ⌊q⌋ else ⌈q⌉

/-- Embedding of `next_power_of_two` (spectrogram.py, lines 13-29).
`math.log2(num)` raises a domain error for `num ≤ 0`, embedded as `none`.
`math.log2(num).is_integer()` holds exactly when `num` is an integer power
of two, which for `num > 0` is decided by `(2:ℚ) ^ Int.log 2 num = num`
(`Int.log 2` is the floor of the base-2 logarithm).  In that branch the
function returns `num` itself; otherwise it returns
`2 ** math.ceil(math.log2 num)`, i.e. `2 ^ Int.clog 2 num`. -/
def next_power_of_two (num : ℚ) : Option ℚ :=
  if 0 < num then
    if (2 : ℚ) ^ Int.log 2 num = num then some num
    else some ((2 : ℚ) ^ Int.clog 2 num)
  else none

/-- Embedding of `freqres_to_nfft` (spectrogram.py, lines 32-48):
`int(next_power_of_two(samplingrate / freq_res))`. -/
def freqres_to_nfft (freq_res samplingrate : ℚ) : Option ℤ :=
  (next_power_of_two (samplingrate / freq_res)).map py_int

/-- Embedding of `overlap_to_hoplen` (spectrogram.py, lines 51-66):
`int(np.floor(nfft * (1 - overlap)))`.  `np.floor` is the exact floor and
the outer `int()` is `py_int`. -/
def overlap_to_hoplen (overlap : ℚ) (nfft : ℤ) : ℤ :=
  py_int ((⌊(nfft : ℚ) * (1 - overlap)⌋ : ℤ) : ℚ)

/-- Embedding of `sint` (spectrogram.py, lines 69-90): returns `int(num)`
when `num.is_integer()` (for a rational, denominator one), otherwise raises
`ValueError` (embedded as `none`). -/
def sint (num : ℚ) : Option ℤ :=
  if num.den = 1 then some num.num else none

section ParamHelpers

lemma two_zpow_pos (k : ℤ) : (0 : ℚ) < 2 ^ k :=
  zpow_pos (by norm_num) k

lemma cast_two_q : ((2 : ℕ) : ℚ) = (2 : ℚ) := by norm_cast

/-- For positive `n`, the branch test of `next_power_of_two` recognises
exactly the integer powers of two. -/
lemma log2_integer_iff {n : ℚ} (h : 0 < n) :
    (2 : ℚ) ^ Int.log 2 n = n ↔ ∃ k : ℤ, n = (2 : ℚ) ^ k := by
  constructor
  · intro he
    exact ⟨Int.log 2 n, he.symm⟩
  · rintro ⟨k, rfl⟩
    have hl : Int.log 2 ((2 : ℚ) ^ k) = k := by
      have := Int.log_zpow (R := ℚ) (b := 2) (by norm_num) k
      rw [cast_two_q] at this
      exact this
    rw [hl]

/-- Core correctness of `next_power_of_two` on positive input: it returns
the least integer power of two that is at least `n`. -/
lemma next_power_of_two_aux {n : ℚ} (h : 0 < n) :
    ∃ m : ℚ, next_power_of_two n = some m ∧
      (∃ k : ℤ, m = (2 : ℚ) ^ k) ∧ n ≤ m ∧
      (∀ j : ℤ, n ≤ (2 : ℚ) ^ j → m ≤ (2 : ℚ) ^ j) := by
  unfold next_power_of_two
  rw [if_pos h]
  by_cases hpow : (2 : ℚ) ^ Int.log 2 n = n
  · refine ⟨n, by rw [if_pos hpow], ⟨Int.log 2 n, hpow.symm⟩, le_refl n, ?_⟩
    intro j hj
    exact hj
  · refine ⟨(2 : ℚ) ^ Int.clog 2 n, by rw [if_neg hpow], ⟨Int.clog 2 n, rfl⟩, ?_, ?_⟩
    · have := Int.self_le_zpow_clog (R := ℚ) (b := 2) (by norm_num) n
      rw [cast_two_q] at this
      exact this
    · intro j hj
      have hcl : Int.clog 2 n ≤ j := by
        have hiff := Int.le_zpow_iff_clog_le (R := ℚ) (b := 2) (by norm_num) (x := j) h
        rw [cast_two_q] at hiff
        exact hiff.mp hj
      exact zpow_le_zpow_right₀ (by norm_num) hcl

/-- The value returned by `next_power_of_two` is tight: its half is
strictly below the input. -/
lemma next_power_of_two_tight {n m : ℚ} (h : 0 < n)
    (hm : next_power_of_two n = some m) : m / 2 < n := by
  obtain ⟨m', hm', ⟨k, hk⟩, _, hmin⟩ := next_power_of_two_aux h
  rw [hm] at hm'
  obtain rfl : m = m' := by injection hm'
  by_contra hcon
  push_neg at hcon
  subst hk
  have hhalf : (2 : ℚ) ^ k / 2 = (2 : ℚ) ^ (k - 1) := by
    rw [zpow_sub_one₀ (by norm_num)]
    ring
  rw [hhalf] at hcon
  have := hmin (k - 1) hcon
  have hlt : (2 : ℚ) ^ (k - 1) < (2 : ℚ) ^ k :=
    zpow_lt_zpow_right₀ (by norm_num) (by omega)
  exact absurd (lt_of_le_of_lt this hlt) (lt_irrefl _)

/-- Computation rule for the floor log: `Int.log 2 (2 ^ k) = k` over `ℚ`,
used to evaluate the branch test at concrete powers of two. -/
lemma int_log_two_zpow (k : ℤ) : Int.log 2 ((2 : ℚ) ^ k) = k := by
  have := Int.log_zpow (R := ℚ) (b := 2) (by norm_num) k
  rw [cast_two_q] at this
  exact this

lemma py_int_intCast (m : ℤ) : py_int (m : ℚ) = m := by
  unfold py_int
  by_cases h : (0 : ℚ) ≤ (m : ℚ)
  · rw [if_pos h, Int.floor_intCast]
  · rw [if_neg h, Int.ceil_intCast]

end ParamHelpers

/-- C10: for every `num ≤ 0`, `next_power_of_two` raises (the `math.log2`
domain error), embedded as returning `none`. -/
theorem next_power_of_two_nonpos (n : ℚ) (h : n ≤ 0) :
    next_power_of_two n = none := by
  unfold next_power_of_two
  rw [if_neg (not_lt.mpr h)]

/-- Witness for C10 at the concrete input `0`. -/
theorem next_power_of_two_nonpos_witness : next_power_of_two 0 = none :=
  next_power_of_two_nonpos 0 (le_refl 0)

/-- Counterexample to C1 as stated: at `n = 1/4` the code takes the
exact-power branch and returns the fractional value `1/4`, which is not an
integer at all, so the conjunct "the result is always a positive integer
power of two" fails on `0 < n < 1`. -/
theorem next_power_of_two_counterexample :
    next_power_of_two ((1 : ℚ) / 4) = some (1 / 4) ∧
      ¬∃ m : ℤ, ((1 : ℚ) / 4) = (m : ℚ) := by
  constructor
  · have hq : (1 : ℚ) / 4 = (2 : ℚ) ^ (-2 : ℤ) := by norm_num
    have hlog : Int.log 2 ((1 : ℚ) / 4) = -2 := by
      rw [hq]
      exact int_log_two_zpow (-2)
    unfold next_power_of_two
    rw [if_pos (by norm_num : (0 : ℚ) < 1 / 4), if_pos]
    rw [hlog, hq]
  · rintro ⟨m, hm⟩
    have h4 : (1 : ℚ) = 4 * (m : ℚ) := by linarith [hm]
    have h4z : (1 : ℤ) = 4 * m := by exact_mod_cast h4
    omega

/-- C1 (amended): for `n > 0`, `next_power_of_two n` succeeds and returns
the smallest power of two that is at least `n` — positive, of the form
`2 ^ k` with `k : ℤ`; an exact power of two is returned unchanged, and on
`(2^(k-1), 2^k]` the result is `2 ^ k`.  The exponent is a natural number
(so the result a positive integer) whenever `1 ≤ n`; for `0 < n < 1` the
result can be fractional. -/
theorem next_power_of_two_correct (n : ℚ) (h : 0 < n) :
    ∃ m : ℚ, next_power_of_two n = some m ∧
      (∃ k : ℤ, m = (2 : ℚ) ^ k) ∧ 0 < m ∧ n ≤ m ∧
      (∀ j : ℤ, n ≤ (2 : ℚ) ^ j → m ≤ (2 : ℚ) ^ j) ∧
      ((∃ k : ℤ, n = (2 : ℚ) ^ k) → m = n) ∧
      (∀ k : ℤ, (2 : ℚ) ^ (k - 1) < n → n ≤ (2 : ℚ) ^ k → m = (2 : ℚ) ^ k) ∧
      (1 ≤ n → ∃ k : ℕ, m = (2 : ℚ) ^ k) := by
  obtain ⟨m, hm, ⟨k, hk⟩, hle, hmin⟩ := next_power_of_two_aux h
  refine ⟨m, hm, ⟨k, hk⟩, ?_, hle, hmin, ?_, ?_, ?_⟩
  · rw [hk]; exact two_zpow_pos k
  · rintro ⟨j, rfl⟩
    have h1 : m ≤ (2 : ℚ) ^ j := hmin j (le_refl _)
    exact le_antisymm h1 hle
  · intro j hj1 hj2
    have h1 : m ≤ (2 : ℚ) ^ j := hmin j hj2
    have h2 : (2 : ℚ) ^ (j - 1) < m := lt_of_lt_of_le hj1 hle
    rw [hk] at h1 h2 ⊢
    have hkj : k ≤ j := (zpow_le_zpow_iff_right₀ (by norm_num : (1:ℚ) < 2)).mp h1
    have hjk : j - 1 < k := (zpow_lt_zpow_iff_right₀ (by norm_num : (1:ℚ) < 2)).mp h2
    have : k = j := by omega
    rw [this]
  · intro h1
    have hkm : (2 : ℚ) ^ (0 : ℤ) ≤ m := by
      rw [zpow_zero]
      exact le_trans h1 hle
    rw [hk] at hkm
    have hk0 : (0 : ℤ) ≤ k := (zpow_le_zpow_iff_right₀ (by norm_num : (1:ℚ) < 2)).mp hkm
    refine ⟨k.toNat, ?_⟩
    rw [hk, ← zpow_natCast]
    congr 1
    omega

/-- Witness for C1 at the concrete input `3`. -/
theorem next_power_of_two_correct_witness :
    ∃ m : ℚ, next_power_of_two 3 = some m ∧
      (∃ k : ℤ, m = (2 : ℚ) ^ k) ∧ 0 < m ∧ 3 ≤ m ∧
      (∀ j : ℤ, 3 ≤ (2 : ℚ) ^ j → m ≤ (2 : ℚ) ^ j) ∧
      ((∃ k : ℤ, (3 : ℚ) = (2 : ℚ) ^ k) → m = 3) ∧
      (∀ k : ℤ, (2 : ℚ) ^ (k - 1) < 3 → 3 ≤ (2 : ℚ) ^ k → m = (2 : ℚ) ^ k) ∧
      ((1 : ℚ) ≤ 3 → ∃ k : ℕ, m = (2 : ℚ) ^ k) :=
  next_power_of_two_correct 3 (by norm_num)

/-- C7: `overlap_to_hoplen` computes `floor(nfft * (1 - overlap))`; for
`overlap ∈ [0,1)` and positive `nfft` the result is at most `nfft`, and it
is at least `1` whenever `overlap < 1 - 1/nfft`. -/
theorem overlap_to_hoplen_correct (overlap : ℚ) (nfft : ℤ)
    (h0 : 0 ≤ overlap) (h1 : overlap < 1) (h2 : 1 ≤ nfft) :
    overlap_to_hoplen overlap nfft = ⌊(nfft : ℚ) * (1 - overlap)⌋ ∧
      overlap_to_hoplen overlap nfft ≤ nfft ∧
      (overlap < 1 - 1 / (nfft : ℚ) → 1 ≤ overlap_to_hoplen overlap nfft) := by
  have heq : overlap_to_hoplen overlap nfft = ⌊(nfft : ℚ) * (1 - overlap)⌋ := by
    unfold overlap_to_hoplen
    exact py_int_intCast _
  have hnfft : (0 : ℚ) < (nfft : ℚ) := by exact_mod_cast lt_of_lt_of_le one_pos h2
  refine ⟨heq, ?_, ?_⟩
  · rw [heq]
    have hle : (nfft : ℚ) * (1 - overlap) ≤ (nfft : ℚ) := by nlinarith
    calc ⌊(nfft : ℚ) * (1 - overlap)⌋ ≤ ⌊((nfft : ℤ) : ℚ)⌋ := Int.floor_le_floor hle
      _ = nfft := Int.floor_intCast nfft
  · intro hov
    rw [heq]
    have hgt : (1 : ℚ) ≤ (nfft : ℚ) * (1 - overlap) := by
      have hinv : 1 / (nfft : ℚ) < 1 - overlap := by linarith
      have := (div_lt_iff₀ hnfft).mp (by linarith : 1 / (nfft : ℚ) < 1 - overlap)
      nlinarith
    exact Int.le_floor.mpr (by exact_mod_cast hgt)

/-- Witness for C7 at the spec's example `overlap_to_hoplen(0.5, 1024)`. -/
theorem overlap_to_hoplen_correct_witness :
    overlap_to_hoplen (1 / 2) 1024 = ⌊((1024 : ℤ) : ℚ) * (1 - 1 / 2)⌋ ∧
      overlap_to_hoplen (1 / 2) 1024 ≤ 1024 ∧
      ((1 : ℚ) / 2 < 1 - 1 / ((1024 : ℤ) : ℚ) → 1 ≤ overlap_to_hoplen (1 / 2) 1024) :=
  overlap_to_hoplen_correct (1 / 2) 1024 (by norm_num) (by norm_num) (by norm_num)

/-- C8: `sint` returns `x` as an integer exactly when `x` has no fractional
part, and raises (embedded as `none`) otherwise; in particular
`sint 4 = some 4` and `sint (9/2)` raises. -/
theorem sint_correct :
    (∀ (x : ℚ) (m : ℤ), sint x = some m ↔ x = (m : ℚ)) ∧
      (∀ x : ℚ, sint x = none ↔ ¬∃ m : ℤ, x = (m : ℚ)) ∧
      sint 4 = some 4 ∧ sint (9 / 2) = none := by
  have h1 : ∀ (x : ℚ) (m : ℤ), sint x = some m ↔ x = (m : ℚ) := by
    intro x m
    constructor
    · intro h
      by_cases hd : x.den = 1
      · rw [sint, if_pos hd] at h
        injection h with h'
        rw [← h']
        exact ((Rat.den_eq_one_iff x).mp hd).symm
      · rw [sint, if_neg hd] at h
        cases h
    · rintro rfl
      rw [sint, if_pos (Rat.den_intCast m), Rat.num_intCast]
  have h2 : ∀ x : ℚ, sint x = none ↔ ¬∃ m : ℤ, x = (m : ℚ) := by
    intro x
    constructor
    · intro h
      rintro ⟨m, rfl⟩
      rw [sint, if_pos (Rat.den_intCast m)] at h
      cases h
    · intro h
      by_cases hd : x.den = 1
      · exact absurd ⟨x.num, ((Rat.den_eq_one_iff x).mp hd).symm⟩ h
      · rw [sint, if_neg hd]
  refine ⟨h1, h2, (h1 4 4).mpr (by norm_num), (h2 (9 / 2)).mpr ?_⟩
  rintro ⟨m, hm⟩
  have h9 : (9 : ℚ) = 2 * (m : ℚ) := by
    field_simp at hm
    linarith [hm]
  have h9z : (9 : ℤ) = 2 * m := by exact_mod_cast h9
  omega

/-- Counterexample to C6 as stated: at `freq_res = 4, samplingrate = 1` the
computed power of two is `1/4` (fractional), yet `freqres_to_nfft` does not
fail with an error — it silently truncates to `0`, which is not a power of
two and not `≥ samplingrate/freq_res`. -/
theorem freqres_to_nfft_counterexample :
    freqres_to_nfft 4 1 = some 0 ∧
      next_power_of_two ((1 : ℚ) / 4) = some (1 / 4) ∧
      ¬∃ k : ℤ, ((0 : ℤ) : ℚ) = (2 : ℚ) ^ k := by
  have hq : (1 : ℚ) / 4 = (2 : ℚ) ^ (-2 : ℤ) := by norm_num
  have hlog : Int.log 2 ((1 : ℚ) / 4) = -2 := by
    rw [hq]
    exact int_log_two_zpow (-2)
  have hnpt : next_power_of_two ((1 : ℚ) / 4) = some (1 / 4) := by
    unfold next_power_of_two
    rw [if_pos (by norm_num : (0 : ℚ) < 1 / 4), if_pos]
    rw [hlog, hq]
  refine ⟨?_, hnpt, ?_⟩
  · unfold freqres_to_nfft
    rw [show ((1 : ℚ) / (4 : ℚ)) = (1 : ℚ) / 4 from rfl, hnpt]
    show some (py_int (1 / 4)) = some 0
    unfold py_int
    rw [if_pos (by norm_num : (0 : ℚ) ≤ 1 / 4)]
    norm_num
  · rintro ⟨k, hk⟩
    have := two_zpow_pos k
    rw [← hk] at this
    exact absurd this (by norm_num)

/-- C6 (amended): whenever `samplingrate / freq_res ≥ 1` (in particular in
the spec's intended domain), `freqres_to_nfft` returns
`next_power_of_two (samplingrate / freq_res)` as an exact integer: a power
of two at least `samplingrate / freq_res` whose half is strictly below it.
For quotients below `1` the computed power of two is fractional and the
code silently truncates it via `int()` instead of raising. -/
theorem freqres_to_nfft_amended (freq_res samplingrate : ℚ)
    (h1 : 0 < freq_res) (h2 : 0 < samplingrate)
    (h3 : 1 ≤ samplingrate / freq_res) :
    ∃ m : ℤ, freqres_to_nfft freq_res samplingrate = some m ∧
      next_power_of_two (samplingrate / freq_res) = some ((m : ℤ) : ℚ) ∧
      (∃ k : ℕ, m = 2 ^ k) ∧
      samplingrate / freq_res ≤ ((m : ℤ) : ℚ) ∧
      ((m : ℤ) : ℚ) / 2 < samplingrate / freq_res := by
  set n : ℚ := samplingrate / freq_res with hn
  have hnpos : 0 < n := lt_of_lt_of_le one_pos h3
  obtain ⟨q, hq, ⟨k, hk⟩, hle, hmin⟩ := next_power_of_two_aux hnpos
  have hk0 : (0 : ℤ) ≤ k := by
    have hkm : (2 : ℚ) ^ (0 : ℤ) ≤ q := by
      rw [zpow_zero]
      exact le_trans h3 hle
    rw [hk] at hkm
    exact (zpow_le_zpow_iff_right₀ (by norm_num : (1:ℚ) < 2)).mp hkm
  have hqz : q = (((2 : ℤ) ^ k.toNat : ℤ) : ℚ) := by
    rw [hk]
    push_cast
    rw [← zpow_natCast]
    congr 1
    omega
  refine ⟨(2 : ℤ) ^ k.toNat, ?_, ?_, ⟨k.toNat, rfl⟩, ?_, ?_⟩
  · unfold freqres_to_nfft
    rw [← hn, hq]
    show some (py_int q) = some ((2 : ℤ) ^ k.toNat)
    rw [hqz, py_int_intCast]
  · rw [← hqz]
    exact hq
  · rw [← hqz]
    exact hle
  · rw [← hqz]
    exact next_power_of_two_tight hnpos hq

/-- Witness for C6 (amended) at the spec's example
`freqres_to_nfft(1.0, 1024)`. -/
theorem freqres_to_nfft_amended_witness :
    ∃ m : ℤ, freqres_to_nfft 1 1024 = some m ∧
      next_power_of_two ((1024 : ℚ) / 1) = some ((m : ℤ) : ℚ) ∧
      (∃ k : ℕ, m = 2 ^ k) ∧
      (1024 : ℚ) / 1 ≤ ((m : ℤ) : ℚ) ∧
      ((m : ℤ) : ℚ) / 2 < (1024 : ℚ) / 1 :=
  freqres_to_nfft_amended 1 1024 (by norm_num) (by norm_num) (by norm_num)

/-- Result of the spectrogram computation: the dimensions of the power
matrix together with the two axis vectors. -/
structure SpecOut where
  rows : ℕ
  cols : ℕ
  time : List ℚ
  freq : List ℚ

/-- Embedding of `spectrogram` (spectrogram.py, lines 120-145), restricted
to the shape and axis behaviour the claims are about.  Modelled from the
spec: the numeric content of `torchaudio.transforms.Spectrogram` (the
Hann-windowed STFT values) is library code absent from `src/`; its output
shape contract — `nfft/2 + 1` frequency bins and
`floor(len(signal)/hop_length) + 1` centred analysis frames — is taken
from the spec.  The axis vectors are translated from the source lines
`time = np.arange(0, spec.shape[1]) * hop_length / samplingrate` and
`freq = np.arange(0, spec.shape[0]) * samplingrate / nfft`. -/
def spectrogram (dataLen : ℕ) (samplingrate : ℚ) (nfft hop_length : ℕ) : SpecOut :=
  let rows := nfft / 2 + 1
  let cols := dataLen / hop_length + 1
  { rows := rows
    cols := cols
    time := (List.range cols).map (fun i : ℕ => (i : ℚ) * (hop_length : ℚ) / samplingrate)
    freq := (List.range rows).map (fun i : ℕ => (i : ℚ) * samplingrate / (nfft : ℚ)) }


/-- C2: the time axis has length `floor(len(signal)/hop_length) + 1` with
`time[i] = i * hop_length / samplingrate`, the frequency axis has length
`nfft/2 + 1` with `freq[i] = i * samplingrate / nfft`, these lengths agree
with the matrix dimensions, and a signal shorter than `nfft` still yields
at least one frame. -/
theorem spectrogram_axes (dataLen : ℕ) (samplingrate : ℚ) (nfft hop_length : ℕ)
    (hhop : 1 ≤ hop_length) (hsr : 0 < samplingrate) :
    (spectrogram dataLen samplingrate nfft hop_length).time.length
        = dataLen / hop_length + 1 ∧
      (spectrogram dataLen samplingrate nfft hop_length).freq.length
        = nfft / 2 + 1 ∧
      (spectrogram dataLen samplingrate nfft hop_length).time.length
        = (spectrogram dataLen samplingrate nfft hop_length).cols ∧
      (spectrogram dataLen samplingrate nfft hop_length).freq.length
        = (spectrogram dataLen samplingrate nfft hop_length).rows ∧
      (∀ i : ℕ, i < dataLen / hop_length + 1 →
        (spectrogram dataLen samplingrate nfft hop_length).time[i]?
          = some ((i : ℚ) * (hop_length : ℚ) / samplingrate)) ∧
      (∀ i : ℕ, i < nfft / 2 + 1 →
        (spectrogram dataLen samplingrate nfft hop_length).freq[i]?
          = some ((i : ℚ) * samplingrate / (nfft : ℚ))) ∧
      (dataLen < nfft → 1 ≤ (spectrogram dataLen samplingrate nfft hop_length).cols) := by
  simp only [spectrogram]
  refine ⟨?_, ?_, ?_, ?_, ?_, ?_, fun _ => Nat.le_add_left 1 _⟩
  · rw [List.length_map, List.length_range]
  · rw [List.length_map, List.length_range]
  · rw [List.length_map, List.length_range]
  · rw [List.length_map, List.length_range]
  · intro i hi
    rw [List.getElem?_map, List.getElem?_range hi]
    rfl
  · intro i hi
    rw [List.getElem?_map, List.getElem?_range hi]
    rfl

/-- Witness for C2 at a signal of 5 samples, sampling rate 10, `nfft = 8`,
`hop_length = 2`. -/
theorem spectrogram_axes_witness :
    (spectrogram 5 10 8 2).time.length = 5 / 2 + 1 ∧
      (spectrogram 5 10 8 2).freq.length = 8 / 2 + 1 ∧
      (spectrogram 5 10 8 2).time.length = (spectrogram 5 10 8 2).cols ∧
      (spectrogram 5 10 8 2).freq.length = (spectrogram 5 10 8 2).rows ∧
      (∀ i : ℕ, i < 5 / 2 + 1 →
        (spectrogram 5 10 8 2).time[i]? = some ((i : ℚ) * ((2 : ℕ) : ℚ) / 10)) ∧
      (∀ i : ℕ, i < 8 / 2 + 1 →
        (spectrogram 5 10 8 2).freq[i]? = some ((i : ℚ) * 10 / ((8 : ℕ) : ℚ))) ∧
      (5 < 8 → 1 ≤ (spectrogram 5 10 8 2).cols) :=
  spectrogram_axes 5 10 8 2 (by norm_num) (by norm_num)

/-!
The `decibel` function (spectrogram.py, lines 148-163) delegates to
`torchaudio.transforms.AmplitudeToDB(stype="power", top_db=80)`, whose
semantics (with `multiplier = 10`, `amin = 1e-10`, `ref_value = 1.0`,
`db_multiplier = log10(max(amin, ref_value))`) is
`x_db = 10 * log10(clamp(x, min=amin)) - 10 * db_multiplier`
followed by the dynamic-range clamp
`x_db = max(x_db, x_db.max() - top_db)` taken against the maximum over the
whole spectrogram.  Floats are idealized as exact reals.
-/

/-- The lower clamp `amin = 1e-10` applied by `AmplitudeToDB` before the
logarithm. -/
noncomputable def amin : ℝ := 1 / 10 ^ 10

/-- The constant `db_multiplier = log10(max(amin, ref_value))` with
`ref_value = 1.0`. -/
noncomputable def db_multiplier : ℝ := Real.logb 10 (max amin 1)

/-- One entry of the decibel conversion:
`10 * log10(clamp(x, min=amin)) - 10 * db_multiplier`. -/
noncomputable def power_to_db (x : ℝ) : ℝ :=
  10 * Real.logb 10 (max x amin) - 10 * db_multiplier

/-- The maximum over the flattened entries, torch's `tensor.max()`; torch raises on an empty
tensor, so the head default of the empty case is never used by the claims
(they assume a nonempty spectrogram). -/
noncomputable def listMax : List ℝ → ℝ
  | [] => 0
  | x :: xs => xs.foldl max x

/-- Embedding of `decibel` (spectrogram.py, lines 148-163): the entrywise
conversion followed by the `top_db = 80` clamp against the global maximum
of the converted matrix. -/
noncomputable def decibel (spec : List (List ℝ)) : List (List ℝ) :=
  let x_db := spec.map (fun row => row.map power_to_db)
  let fl := listMax x_db.flatten - 80
  x_db.map (fun row => row.map (fun v => max v fl))

/-- The maximum of the converted matrix, i.e. `x_db.max()` in the source. -/
noncomputable def max_db (spec : List (List ℝ)) : ℝ :=
  listMax ((spec.map (fun row => row.map power_to_db)).flatten)

/-- Entry access in a matrix given as a list of rows. -/
def entry? (s : List (List ℝ)) (i j : ℕ) : Option ℝ :=
  match s[i]? with
  | some r => r[j]?
  | none => none

/-- The decibel conversion exactly as claim C3 words it (refinement
target, not translated from the source): reference derived per call as the
maximum value of the input, `10 * log10(value / reference)`, then the 80 dB
floor against the maximum of the converted matrix. -/
noncomputable def to_decibel_claimed (spec : List (List ℝ)) : List (List ℝ) :=
  let r := listMax spec.flatten
  let x_db := spec.map (fun row => row.map (fun v => 10 * Real.logb 10 (v / r)))
  let fl := listMax x_db.flatten - 80
  x_db.map (fun row => row.map (fun v => max v fl))

section DecibelHelpers

lemma amin_pos : (0 : ℝ) < amin := by norm_num [amin]

lemma amin_eq_zpow : amin = (10 : ℝ) ^ (-10 : ℤ) := by
  rw [amin, zpow_neg]
  norm_num

lemma logb_ten_zpow (k : ℤ) : Real.logb 10 ((10 : ℝ) ^ k) = k := by
  rw [Real.logb, Real.log_zpow]
  have h10 : Real.log 10 ≠ 0 :=
    Real.log_ne_zero_of_pos_of_ne_one (by norm_num) (by norm_num)
  field_simp

lemma db_multiplier_eq_zero : db_multiplier = 0 := by
  rw [db_multiplier, max_eq_right (by norm_num [amin] : amin ≤ (1 : ℝ)),
    Real.logb_one]

lemma power_to_db_eq (x : ℝ) : power_to_db x = 10 * Real.logb 10 (max x amin) := by
  rw [power_to_db, db_multiplier_eq_zero]
  ring

lemma power_to_db_mono : Monotone power_to_db := by
  intro a b hab
  rw [power_to_db_eq, power_to_db_eq]
  have h1 : (0 : ℝ) < max a amin := lt_of_lt_of_le amin_pos (le_max_right a amin)
  have h2 : max a amin ≤ max b amin := max_le_max hab (le_refl amin)
  have := Real.logb_le_logb_of_le (by norm_num : (1:ℝ) < 10) h1 h2
  linarith

lemma power_to_db_strict {a b : ℝ} (hab : b < a) (ha : amin < a) :
    power_to_db b < power_to_db a := by
  rw [power_to_db_eq, power_to_db_eq]
  have h1 : (0 : ℝ) < max b amin := lt_of_lt_of_le amin_pos (le_max_right b amin)
  have h2 : max b amin < max a amin := by
    rw [max_eq_left (le_of_lt ha)]
    exact max_lt hab ha
  have := Real.logb_lt_logb (by norm_num : (1:ℝ) < 10) h1 h2
  linarith

lemma power_to_db_of_le_amin {x : ℝ} (hx : x ≤ amin) : power_to_db x = -100 := by
  rw [power_to_db_eq, max_eq_right hx, amin_eq_zpow, logb_ten_zpow]
  norm_num

lemma power_to_db_ten_zpow (k : ℤ) (hk : -10 ≤ k) :
    power_to_db ((10 : ℝ) ^ k) = 10 * k := by
  rw [power_to_db_eq, max_eq_left, logb_ten_zpow]
  rw [amin_eq_zpow]
  exact zpow_le_zpow_right₀ (by norm_num) hk

lemma foldl_max_le_init (xs : List ℝ) (a : ℝ) : a ≤ xs.foldl max a := by
  induction xs generalizing a with
  | nil => exact le_refl a
  | cons y ys ih => exact le_trans (le_max_left a y) (ih (max a y))

lemma mem_le_foldl_max (xs : List ℝ) (a x : ℝ) (hx : x ∈ xs) :
    x ≤ xs.foldl max a := by
  induction xs generalizing a with
  | nil => cases hx
  | cons y ys ih =>
    rcases List.mem_cons.mp hx with rfl | h
    · exact le_trans (le_max_right a x) (foldl_max_le_init ys (max a x))
    · exact ih (max a y) h

lemma le_listMax {x : ℝ} {l : List ℝ} (hx : x ∈ l) : x ≤ listMax l := by
  cases l with
  | nil => cases hx
  | cons y ys =>
    rcases List.mem_cons.mp hx with rfl | h
    · exact foldl_max_le_init ys x
    · exact mem_le_foldl_max ys y x h

lemma foldl_max_map (f : ℝ → ℝ) (hf : Monotone f) (xs : List ℝ) (a : ℝ) :
    (xs.map f).foldl max (f a) = f (xs.foldl max a) := by
  induction xs generalizing a with
  | nil => rfl
  | cons y ys ih =>
    show (ys.map f).foldl max (max (f a) (f y)) = f ((y :: ys).foldl max a)
    rw [← hf.map_max]
    exact ih (max a y)

lemma listMax_map_mono (f : ℝ → ℝ) (hf : Monotone f) {l : List ℝ}
    (hl : l ≠ []) : listMax (l.map f) = f (listMax l) := by
  cases l with
  | nil => exact absurd rfl hl
  | cons x xs => exact foldl_max_map f hf xs x

/-- Entrywise characterization of `decibel`. -/
lemma decibel_entry (s : List (List ℝ)) (i j : ℕ) :
    entry? (decibel s) i j
      = (entry? s i j).map (fun x => max (power_to_db x) (max_db s - 80)) := by
  simp only [decibel, entry?, max_db, List.getElem?_map]
  cases hrow : s[i]? with
  | none => rfl
  | some r =>
    simp only [Option.map_some', List.getElem?_map]
    cases hx : r[j]? with
    | none => rfl
    | some x => rfl

/-- The maximum of the converted matrix is the conversion of the maximum
input entry. -/
lemma max_db_eq (s : List (List ℝ)) (hne : s.flatten ≠ []) :
    max_db s = power_to_db (listMax s.flatten) := by
  rw [max_db, ← List.map_flatten]
  exact listMax_map_mono power_to_db power_to_db_mono hne

end DecibelHelpers

/-- Counterexample to C3 as stated: on the matrix `[[100]]` the code maps
the (maximal) entry `100` to `10*log10(100) = 20` dB, whereas a conversion
whose reference is the per-call maximum of the input would map it to
`10*log10(100/100) = 0` dB. -/
theorem decibel_ref_counterexample :
    decibel [[100]] = [[20]] ∧ to_decibel_claimed [[100]] = [[0]] ∧
      decibel [[100]] ≠ to_decibel_claimed [[100]] := by
  have h100 : power_to_db 100 = 20 := by
    rw [show (100 : ℝ) = (10 : ℝ) ^ (2 : ℤ) by norm_num,
      power_to_db_ten_zpow 2 (by norm_num)]
    norm_num
  have hd : decibel [[100]] = [[20]] := by
    simp only [decibel, List.map_cons, List.map_nil, List.flatten_cons,
      List.flatten_nil, List.append_nil, listMax, List.foldl, h100]
    rw [max_eq_left (by norm_num : (20 : ℝ) - 80 ≤ 20)]
  have hc : to_decibel_claimed [[100]] = [[0]] := by
    simp only [to_decibel_claimed, List.map_cons, List.map_nil,
      List.flatten_cons, List.flatten_nil, List.append_nil, listMax,
      List.foldl]
    rw [div_self (by norm_num : (100 : ℝ) ≠ 0), Real.logb_one, mul_zero,
      max_eq_left (by norm_num : (0 : ℝ) - 80 ≤ 0)]
  refine ⟨hd, hc, ?_⟩
  rw [hd, hc]
  intro h
  injection h with h1 _
  injection h1 with h2 _
  norm_num at h2

/-- C3 (amended): each entry is converted by
`10 * log10(max(value, amin))` with the fixed reference `1.0`
(`db_multiplier = 0`), not by the per-call input maximum; the input maximum
determines only the floor: every converted entry more than 80 dB below the
maximum converted value is clamped to exactly `max_db - 80`, and the
maximum converted value is the conversion of the maximum input entry. -/
theorem decibel_amended (s : List (List ℝ)) (hne : s.flatten ≠ []) (i j : ℕ)
    (x : ℝ) (hx : entry? s i j = some x) :
    ∃ y : ℝ, entry? (decibel s) i j = some y ∧
      y = max (power_to_db x) (max_db s - 80) ∧
      power_to_db x = 10 * Real.logb 10 (max x amin) ∧
      (power_to_db x < max_db s - 80 → y = max_db s - 80) ∧
      (max_db s - 80 ≤ power_to_db x → y = power_to_db x) ∧
      max_db s = power_to_db (listMax s.flatten) := by
  have he := decibel_entry s i j
  rw [hx] at he
  refine ⟨max (power_to_db x) (max_db s - 80), by rw [he]; rfl, rfl,
    power_to_db_eq x, ?_, ?_, max_db_eq s hne⟩
  · intro h
    exact max_eq_right (le_of_lt h)
  · intro h
    exact max_eq_left h

/-- Witness for C3 (amended) at the matrix `[[100]]`. -/
theorem decibel_amended_witness :
    ∃ y : ℝ, entry? (decibel [[100]]) 0 0 = some y ∧
      y = max (power_to_db 100) (max_db [[100]] - 80) ∧
      power_to_db 100 = 10 * Real.logb 10 (max 100 amin) ∧
      (power_to_db 100 < max_db [[100]] - 80 → y = max_db [[100]] - 80) ∧
      (max_db [[100]] - 80 ≤ power_to_db 100 → y = power_to_db 100) ∧
      max_db [[100]] = power_to_db (listMax ([[100]] : List (List ℝ)).flatten) :=
  decibel_amended [[100]] (by simp) 0 0 100 rfl

/-- Counterexample to C4 as stated: on `[[1/10^4, 0]]` the zero entry is
not treated as negative infinity (which the floor would then lift to
`max_db - 80 = -120` dB); it is clamped to `amin = 1e-10` and comes out at
`-100` dB, above the floor. -/
theorem decibel_neg_inf_counterexample :
    decibel [[1 / 10 ^ 4, 0]] = [[-40, -100]] ∧
      max_db [[1 / 10 ^ 4, 0]] - 80 = -120 ∧ ((-100 : ℝ) ≠ -120) := by
  have h4 : power_to_db (1 / 10 ^ 4) = -40 := by
    rw [show (1 / 10 ^ 4 : ℝ) = (10 : ℝ) ^ (-4 : ℤ) by
        rw [zpow_neg]; norm_num,
      power_to_db_ten_zpow (-4) (by norm_num)]
    norm_num
  have h0 : power_to_db 0 = -100 := power_to_db_of_le_amin (le_of_lt amin_pos)
  have hmax : max_db [[1 / 10 ^ 4, 0]] = -40 := by
    simp only [max_db, List.map_cons, List.map_nil, List.flatten_cons,
      List.flatten_nil, List.append_nil, h4, h0, listMax, List.foldl]
    rw [max_eq_left (by norm_num : (-100 : ℝ) ≤ -40)]
  refine ⟨?_, by rw [hmax]; norm_num, by norm_num⟩
  simp only [decibel, List.map_cons, List.map_nil, List.flatten_cons,
    List.flatten_nil, List.append_nil, h4, h0, listMax, List.foldl]
  rw [max_eq_left (by norm_num : (-100 : ℝ) ≤ -40)]
  rw [max_eq_left (by norm_num : (-40 : ℝ) - 80 ≤ -40),
    max_eq_left (by norm_num : (-40 : ℝ) - 80 ≤ -100)]

/-- C4 (amended): the conversion is total on zero or negative entries — no
error is raised; such an entry is clamped up to `amin = 1e-10` (so it
converts to `-100` dB, not to negative infinity) before the dynamic-range
floor is applied. -/
theorem decibel_nonpos_amended (s : List (List ℝ)) (i j : ℕ) (x : ℝ)
    (hx : entry? s i j = some x) (hx0 : x ≤ 0) :
    ∃ y : ℝ, entry? (decibel s) i j = some y ∧
      y = max (-100) (max_db s - 80) ∧ power_to_db x = -100 := by
  have hpd : power_to_db x = -100 :=
    power_to_db_of_le_amin (le_trans hx0 (le_of_lt amin_pos))
  have he := decibel_entry s i j
  rw [hx] at he
  exact ⟨max (power_to_db x) (max_db s - 80), by rw [he]; rfl,
    by rw [hpd], hpd⟩

/-- Witness for C4 (amended) at the zero entry of `[[1/10^4, 0]]`. -/
theorem decibel_nonpos_amended_witness :
    ∃ y : ℝ, entry? (decibel [[1 / 10 ^ 4, 0]]) 0 1 = some y ∧
      y = max (-100) (max_db [[1 / 10 ^ 4, 0]] - 80) ∧
      power_to_db 0 = -100 :=
  decibel_nonpos_amended [[1 / 10 ^ 4, 0]] 0 1 0 rfl (le_refl 0)

/-- Counterexample to C5 as stated: in `[[1/10^4, 1/10^11, 1/10^12]]` the
entries `a = 1/10^11 > b = 1/10^12 > 0` both convert to `-100` dB (the
`amin` clamp flattens them), yet the 80 dB floor is `-120` dB: they are
equal without being clamped to the floor. -/
theorem decibel_mono_counterexample :
    decibel [[1 / 10 ^ 4, 1 / 10 ^ 11, 1 / 10 ^ 12]] = [[-40, -100, -100]] ∧
      max_db [[1 / 10 ^ 4, 1 / 10 ^ 11, 1 / 10 ^ 12]] - 80 = -120 ∧
      ((1 : ℝ) / 10 ^ 12 < 1 / 10 ^ 11 ∧ (0 : ℝ) < 1 / 10 ^ 12) ∧
      ¬((-100 : ℝ) > -100 ∨ ((-100 : ℝ) = -100 ∧ (-100 : ℝ) = -120)) := by
  have h4 : power_to_db (1 / 10 ^ 4) = -40 := by
    rw [show (1 / 10 ^ 4 : ℝ) = (10 : ℝ) ^ (-4 : ℤ) by
        rw [zpow_neg]; norm_num,
      power_to_db_ten_zpow (-4) (by norm_num)]
    norm_num
  have h11 : power_to_db (1 / 10 ^ 11) = -100 :=
    power_to_db_of_le_amin (by norm_num [amin])
  have h12 : power_to_db (1 / 10 ^ 12) = -100 :=
    power_to_db_of_le_amin (by norm_num [amin])
  have hmax : max_db [[1 / 10 ^ 4, 1 / 10 ^ 11, 1 / 10 ^ 12]] = -40 := by
    simp only [max_db, List.map_cons, List.map_nil, List.flatten_cons,
      List.flatten_nil, List.append_nil, h4, h11, h12, listMax, List.foldl]
    rw [max_eq_left (by norm_num : (-100 : ℝ) ≤ -40),
      max_eq_left (by norm_num : (-100 : ℝ) ≤ -40)]
  refine ⟨?_, by rw [hmax]; norm_num, ⟨by norm_num, by norm_num⟩, by norm_num⟩
  simp only [decibel, List.map_cons, List.map_nil, List.flatten_cons,
    List.flatten_nil, List.append_nil, h4, h11, h12, listMax, List.foldl]
  rw [max_eq_left (by norm_num : (-100 : ℝ) ≤ -40),
    max_eq_left (by norm_num : (-100 : ℝ) ≤ -40)]
  rw [max_eq_left (by norm_num : (-40 : ℝ) - 80 ≤ -40),
    max_eq_left (by norm_num : (-40 : ℝ) - 80 ≤ -100)]

/-- C5 (amended): the conversion is monotone — for entries `a > b > 0` the
converted values satisfy `db(a) ≥ db(b)` — and equality can only arise from
clamping: either both values sit at the 80 dB floor, or both inputs lie at
or below the `amin = 1e-10` underflow clamp (`a ≤ amin`). -/
theorem decibel_monotone_amended (s : List (List ℝ)) (i j k l : ℕ) (a b : ℝ)
    (ha : entry? s i j = some a) (hb : entry? s k l = some b)
    (hba : b < a) (hb0 : 0 < b) :
    ∃ ya yb : ℝ, entry? (decibel s) i j = some ya ∧
      entry? (decibel s) k l = some yb ∧ yb ≤ ya ∧
      (ya = yb → ya = max_db s - 80 ∨ a ≤ amin) := by
  have hea := decibel_entry s i j
  rw [ha] at hea
  have heb := decibel_entry s k l
  rw [hb] at heb
  refine ⟨max (power_to_db a) (max_db s - 80),
    max (power_to_db b) (max_db s - 80), by rw [hea]; rfl, by rw [heb]; rfl,
    max_le_max (power_to_db_mono (le_of_lt hba)) (le_refl _), ?_⟩
  intro heq
  by_cases hA : a ≤ amin
  · exact Or.inr hA
  · left
    push_neg at hA
    have hstrict : power_to_db b < power_to_db a := power_to_db_strict hba hA
    by_contra hne
    have hfllt : max_db s - 80 < power_to_db a := by
      rcases le_or_lt (power_to_db a) (max_db s - 80) with hle | hlt
      · exact absurd (max_eq_right hle) hne
      · exact hlt
    have hya : max (power_to_db a) (max_db s - 80) = power_to_db a :=
      max_eq_left (le_of_lt hfllt)
    have hyb : max (power_to_db b) (max_db s - 80) < power_to_db a :=
      max_lt hstrict hfllt
    rw [hya] at heq
    rw [← heq] at hyb
    exact lt_irrefl _ hyb

/-- Witness for C5 (amended) at the matrix `[[100, 10]]` with `a = 100`,
`b = 10`. -/
theorem decibel_monotone_amended_witness :
    ∃ ya yb : ℝ, entry? (decibel [[100, 10]]) 0 0 = some ya ∧
      entry? (decibel [[100, 10]]) 0 1 = some yb ∧ yb ≤ ya ∧
      (ya = yb → ya = max_db [[100, 10]] - 80 ∨ (100 : ℝ) ≤ amin) :=
  decibel_monotone_amended [[100, 10]] 0 0 0 1 100 10 rfl rfl
    (by norm_num) (by norm_num)

/-- C9: the conversion is a pure function of the input value: it returns a
fresh matrix with the same dimensions as its input whose `(i, j)` entry is
exactly the decibel conversion (with the 80 dB floor) of the input's
`(i, j)` entry; the input matrix is not written to (every source operation
in the chain allocates a new tensor). -/
theorem decibel_pure (s : List (List ℝ)) :
    (decibel s).length = s.length ∧
      (∀ i : ℕ, ((decibel s)[i]?).map List.length = (s[i]?).map List.length) ∧
      (∀ i j : ℕ, ∀ x : ℝ, entry? s i j = some x →
        entry? (decibel s) i j = some (max (power_to_db x) (max_db s - 80))) := by
  refine ⟨?_, ?_, ?_⟩
  · simp only [decibel]
    rw [List.length_map, List.length_map]
  · intro i
    simp only [decibel, List.getElem?_map]
    cases s[i]? with
    | none => rfl
    | some r =>
      simp only [Option.map_some', List.length_map]
  · intro i j x hx
    have he := decibel_entry s i j
    rw [hx] at he
    rw [he]
    rfl

/-- Witness for C9 at the matrix `[[100]]`. -/
theorem decibel_pure_witness :
    (decibel [[100]]).length = ([[100]] : List (List ℝ)).length ∧
      (∀ i : ℕ, ((decibel [[100]])[i]?).map List.length
        = (([[100]] : List (List ℝ))[i]?).map List.length) ∧
      (∀ i j : ℕ, ∀ x : ℝ, entry? [[100]] i j = some x →
        entry? (decibel [[100]]) i j
          = some (max (power_to_db x) (max_db [[100]] - 80))) :=
  decibel_pure [[100]]
